import Mathlib

/-!
Verification development for the event-flyer extraction pipeline
(`OCRProcessor` and the event-update route in `app.py`).

The heuristic field extractors of `extract_event_info` are driven by
Python regular expressions compiled with `re.IGNORECASE`.  We embed the
relevant fragment of that regex language shallowly: a pattern is a term
of the inductive type `Re`, and `matchLens` enumerates, in exactly the
backtracking (depth-first, greedy, leftmost-alternative-first) order used
by Python's engine, the lengths of text a pattern can consume at a given
position.  `search1` then yields the leftmost-first match, which is what
`re.findall(...)[0]` returns for the patterns used by the source, and
`findallG` yields the successive capture-group strings returned by
`re.findall` for the single-group host/venue patterns.

All character predicates are stated on code points (`Char.toNat`) so that
facts about them reduce to linear arithmetic.
-/

/-- Python `\s` on the ASCII range: space, tab, newline, carriage return,
vertical tab, form feed (the whitespace characters occurring in OCR text). -/
def pySpace (c : Char) : Bool :=
  c.toNat = 32 || c.toNat = 9 || c.toNat = 10 || c.toNat = 13 || c.toNat = 11 || c.toNat = 12

/-- Python `\w` on the ASCII range, used for `\b` word boundaries. -/
def wordChar (c : Char) : Bool :=
  (65 ≤ c.toNat && c.toNat ≤ 90) || (97 ≤ c.toNat && c.toNat ≤ 122) ||
  (48 ≤ c.toNat && c.toNat ≤ 57) || c.toNat = 95

/-- Lower-casing on code points (ASCII), for `re.IGNORECASE` comparisons. -/
def lowN (n : Nat) : Nat := if 65 ≤ n ∧ n ≤ 90 then n + 32 else n

/-- Case-insensitive character comparison (ASCII), as under `re.IGNORECASE`. -/
def ciEq (a b : Char) : Bool := lowN a.toNat = lowN b.toNat

/-- The character classes occurring in the source's regexes. -/
inductive CC where
  | digit
  | space
  | alnumSpAmp
  | alnumSpComma
  | slashDash
deriving DecidableEq

/-- Membership in a character class. `alnumSpAmp` is the source's
`[A-Za-z0-9\s&]`, `alnumSpComma` is `[A-Za-z0-9\s,]`, `slashDash` is the slash-or-hyphen class. -/
def CC.mem : CC → Char → Bool
  | .digit, c => 48 ≤ c.toNat && c.toNat ≤ 57
  | .space, c => pySpace c
  | .alnumSpAmp, c =>
      (65 ≤ c.toNat && c.toNat ≤ 90) || (97 ≤ c.toNat && c.toNat ≤ 122) ||
      (48 ≤ c.toNat && c.toNat ≤ 57) || pySpace c || c.toNat = 38
  | .alnumSpComma, c =>
      (65 ≤ c.toNat && c.toNat ≤ 90) || (97 ≤ c.toNat && c.toNat ≤ 122) ||
      (48 ≤ c.toNat && c.toNat ≤ 57) || pySpace c || c.toNat = 44
  | .slashDash, c => c.toNat = 47 || c.toNat = 45

/-- The fragment of Python's regex language used by `extract_event_info`.
`wb` is `\b`; `rep c lo hi` is the greedy bounded repetition `c{lo,hi}` of a
character class; `star`/`plus` are greedy `c*`/`c+`; `lit` is a literal
matched case-insensitively; `alt` is ordered alternation; `opt` is greedy `?`. -/
inductive Re where
  | eps
  | wb
  | cls (c : CC)
  | rep (c : CC) (lo hi : Nat)
  | star (c : CC)
  | plus (c : CC)
  | lit (l : List Char)
  | seq (a b : Re)
  | alt (a b : Re)
  | opt (a : Re)

/-- Length of the maximal run of class characters at the head of `s`. -/
def runLen (c : CC) : List Char → Nat
  | [] => 0
  | a :: s => if c.mem a then runLen c s + 1 else 0

/-- Case-insensitive literal test at the head of `s`. -/
def ciPre : List Char → List Char → Bool
  | [], _ => true
  | _ :: _, [] => false
  | a :: l, b :: s => ciEq a b && ciPre l s

/-- The list `[k, k-1, ..., lo]` (empty when `k < lo`): the candidate
consumption lengths of a greedy class repetition, most-preferred first. -/
def downFrom (k lo : Nat) : List Nat :=
  (List.range (k + 1 - lo)).map (fun j => k - j)

/-- Word-boundary test between an optional previous character and the head
of the remaining input. -/
def boundary (prev : Option Char) (next : Option Char) : Bool :=
  (match prev with | none => false | some c => wordChar c) !=
  (match next with | none => false | some c => wordChar c)

/-- The character just before the position reached after consuming `n`
characters of `s`, given the character `prev` just before `s`. -/
def prevAt (prev : Option Char) (s : List Char) (n : Nat) : Option Char :=
  if n = 0 then prev else s[n - 1]?

/-- All lengths of text the pattern can consume at the head of `s` (with
`prev` the character just before `s`), in Python's backtracking preference
order; the head of the list is the length Python's engine actually uses. -/
def matchLens : Re → Option Char → List Char → List Nat
  | .eps, _, _ => [0]
  | .wb, prev, s => if boundary prev s.head? then [0] else []
  | .cls c, _, s => match s with
    | [] => []
    | a :: _ => if c.mem a then [1] else []
  | .rep c lo hi, _, s =>
      let k := min (runLen c s) hi
      if k < lo then [] else downFrom k lo
  | .star c, _, s => downFrom (runLen c s) 0
  | .plus c, _, s => downFrom (runLen c s) 1
  | .lit l, _, s => if ciPre l s then [l.length] else []
  | .seq a b, prev, s =>
      (matchLens a prev s).flatMap
        (fun n1 => (matchLens b (prevAt prev s n1) (s.drop n1)).map (fun n2 => n1 + n2))
  | .alt a b, prev, s => matchLens a prev s ++ matchLens b prev s
  | .opt a, prev, s => matchLens a prev s ++ [0]

/-- The character just before position `i` of `s`, given `prev0` just
before `s` itself. -/
def prevIdxP (prev0 : Option Char) (s : List Char) (i : Nat) : Option Char :=
  if i = 0 then prev0 else s[i - 1]?

/-- Leftmost match of `r` in `s` (scanning start positions left to right,
as `re.search`/the first element of `re.findall` do): start index and
consumed length. -/
def search1P (r : Re) (prev0 : Option Char) (s : List Char) : Option (Nat × Nat) :=
  (List.range (s.length + 1)).findSome?
    (fun i => (matchLens r (prevIdxP prev0 s i) (s.drop i)).head?.map (fun n => (i, n)))

/-- Leftmost match of `r` in the whole string `s`. -/
def search1 (r : Re) (s : List Char) : Option (Nat × Nat) := search1P r none s

/-- The leftmost full-pattern match of `r` in `s`, as a string. This is
what `re.findall(r, s)[0]` yields for a pattern without capture groups. -/
def firstMatchStr (r : Re) (s : List Char) : Option (List Char) :=
  (search1 r s).map (fun p => (s.drop p.1).take p.2)

/-- Ordered alternation of case-insensitive literals (source order of the
Python alternation). -/
def alts : List (List Char) → Re
  | [] => .lit []
  | [l] => .lit l
  | l :: ls => .alt (.lit l) (alts ls)

/-- Abbreviated month form `Abbr(?:rest)?`, e.g. `Jan(?:uary)?`. -/
def mAbbr (a b : List Char) : Re := .seq (.lit a) (.opt (.lit b))

/-- The month alternation of the source's date regexes, in source order. -/
def monthAlt : Re :=
  .alt (mAbbr "Jan".data "uary".data) (.alt (mAbbr "Feb".data "ruary".data)
  (.alt (mAbbr "Mar".data "ch".data) (.alt (mAbbr "Apr".data "il".data)
  (.alt (.lit "May".data) (.alt (mAbbr "Jun".data "e".data)
  (.alt (mAbbr "Jul".data "y".data) (.alt (mAbbr "Aug".data "ust".data)
  (.alt (mAbbr "Sep".data "tember".data) (.alt (mAbbr "Oct".data "ober".data)
  (.alt (mAbbr "Nov".data "ember".data) (mAbbr "Dec".data "ember".data)))))))))))

/-- The weekday alternation of the source's third date regex. -/
def weekdayAlt : Re :=
  alts ["Monday".data, "Tuesday".data, "Wednesday".data, "Thursday".data,
        "Friday".data, "Saturday".data, "Sunday".data]

def spPlus : Re := .plus .space
def spStar : Re := .star .space
def d12 : Re := .rep .digit 1 2
def d2 : Re := .rep .digit 2 2
def d4 : Re := .rep .digit 4 4
def d24 : Re := .rep .digit 2 4
def colonLit : Re := .lit [':']
def ordOpt : Re := .opt (alts ["st".data, "nd".data, "rd".data, "th".data])
def commaOpt : Re := .opt (.lit [','])

/-- First date pattern: month-name form
`\b(?:Jan(?:uary)?|...)\s+\d{1,2}(?:st|nd|rd|th)?,?\s+\d{4}\b`. -/
def dateP1 : Re :=
  .seq .wb (.seq monthAlt (.seq spPlus (.seq d12 (.seq ordOpt
    (.seq commaOpt (.seq spPlus (.seq d4 .wb)))))))

/-- Second date pattern: numeric form with slash-or-hyphen separators. -/
def dateP2 : Re :=
  .seq .wb (.seq d12 (.seq (.cls .slashDash) (.seq d12 (.seq (.cls .slashDash)
    (.seq d24 .wb)))))

/-- Third date pattern: weekday form `\b(?:Monday|...),?\s+(months)\s+\d{1,2}(?:st|nd|rd|th)?\b`. -/
def dateP3 : Re :=
  .seq .wb (.seq weekdayAlt (.seq commaOpt (.seq spPlus (.seq monthAlt
    (.seq spPlus (.seq d12 (.seq ordOpt .wb)))))))

/-- The am/pm alternation `(?:am|pm|AM|PM)` of the time patterns. -/
def ampm : Re := alts ["am".data, "pm".data, "AM".data, "PM".data]

/-- The range separator alternation of the time range patterns. -/
def timeSep : Re := alts ["-".data, "to".data, "–".data]

/-- First time pattern: `\b(?:\d{1,2}:\d{2})\s*(?:am|pm|AM|PM)\b`. -/
def timeP1 : Re :=
  .seq .wb (.seq d12 (.seq colonLit (.seq d2 (.seq spStar (.seq ampm .wb)))))

/-- Second time pattern: `\b(?:\d{1,2})\s*(?:am|pm|AM|PM)\b`. -/
def timeP2 : Re := .seq .wb (.seq d12 (.seq spStar (.seq ampm .wb)))

/-- Third time pattern: the `H:MM`–`H:MM` am/pm range form. -/
def timeP3 : Re :=
  .seq .wb (.seq d12 (.seq colonLit (.seq d2 (.seq spStar (.seq timeSep
    (.seq spStar (.seq d12 (.seq colonLit (.seq d2 (.seq spStar (.seq ampm .wb)))))))))))

/-- Fourth time pattern: the `H am/pm`–`H am/pm` range form. -/
def timeP4 : Re :=
  .seq .wb (.seq d12 (.seq spStar (.seq ampm (.seq spStar (.seq timeSep
    (.seq spStar (.seq d12 (.seq spStar (.seq ampm .wb)))))))))

/-- The street-suffix alternation of the first location pattern. -/
def streetAlt : Re :=
  alts ["Street".data, "St".data, "Avenue".data, "Ave".data, "Road".data,
        "Rd".data, "Boulevard".data, "Blvd".data, "Lane".data, "Ln".data,
        "Drive".data, "Dr".data, "Court".data, "Ct".data, "Plaza".data,
        "Plz".data, "Square".data, "Sq".data, "Highway".data, "Hwy".data,
        "Broadway".data, "Parkway".data, "Pkwy".data]

/-- The venue-keyword alternation of the second location pattern. -/
def venueAlt : Re :=
  alts ["Club".data, "Venue".data, "Bar".data, "Lounge".data, "Hall".data,
        "Center".data, "Theatre".data, "Theater".data, "Arena".data,
        "Stadium".data, "Gallery".data, "Museum".data, "Cafe".data,
        "Restaurant".data]

/-- First location pattern: the street-address form (no capture group). -/
def locP1 : Re :=
  .seq .wb (.seq (.plus .digit) (.seq spPlus (.seq (.plus .alnumSpComma)
    (.seq streetAlt .wb))))

/-- Part of the second location pattern before its capture group:
`\b(?:at|@)\s+`. -/
def locP2pre : Re := .seq .wb (.seq (alts ["at".data, "@".data]) spPlus)

/-- The capture group of the second location pattern:
`([A-Za-z0-9\s&]+(?:Club|...))` (the trailing `\b` is added by the searcher). -/
def locP2grp : Re := .seq (.plus .alnumSpAmp) venueAlt

/-- Pre-group parts of the four host patterns, in source order. -/
def hostPre1 : Re := .seq .wb (.seq (.lit "DJ".data) spPlus)
def hostPre2 : Re := .seq .wb (.seq (.lit "featuring".data) spPlus)
def hostPre3 : Re := .seq .wb (.seq (.lit "presented by".data) spPlus)
def hostPre4 : Re := .seq .wb (.seq (.lit "hosted by".data) spPlus)

/-- The capture group `([A-Za-z0-9\s&]+)` shared by the four host patterns
(the trailing `\b` is added by the searcher). -/
def hostGrp : Re := .plus .alnumSpAmp

/-- First match of the one-group pattern `pre(grp)\b` at start position `i`
of `s`: pre-group and group consumed lengths, in backtracking order. -/
def tryAtG (pre grp : Re) (prev0 : Option Char) (s : List Char) (i : Nat) :
    Option (Nat × Nat) :=
  ((matchLens pre (prevIdxP prev0 s i) (s.drop i)).flatMap
    (fun np => (matchLens (.seq grp .wb) (prevAt (prevIdxP prev0 s i) (s.drop i) np)
      ((s.drop i).drop np)).map (fun ng => (np, ng)))).head?

/-- Leftmost match of the one-group pattern `pre(grp)\b` in `s`:
start index, pre-group length, group length. -/
def searchGP (pre grp : Re) (prev0 : Option Char) (s : List Char) :
    Option (Nat × Nat × Nat) :=
  (List.range (s.length + 1)).findSome?
    (fun i => (tryAtG pre grp prev0 s i).map (fun p => (i, p.1, p.2)))

/-- Successive capture-group strings of `re.findall` for a one-group
pattern, resuming after each full match (fuel-bounded recursion on the
shrinking remainder). -/
def findallGAux (pre grp : Re) : Nat → Option Char → List Char → List (List Char)
  | 0, _, _ => []
  | fuel + 1, prev0, s =>
    match searchGP pre grp prev0 s with
    | none => []
    | some (i, np, ng) =>
      let adv := max (i + np + ng) (i + 1)
      ((s.drop (i + np)).take ng) :: findallGAux pre grp fuel (s[adv - 1]?) (s.drop adv)

/-- All capture-group strings of `re.findall` for a one-group pattern. -/
def findallG (pre grp : Re) (s : List Char) : List (List Char) :=
  findallGAux pre grp (s.length + 1) none s

/-- Removal of trailing whitespace (the right half of Python `str.strip()`). -/
def stripEnd : List Char → List Char
  | [] => []
  | c :: t =>
    let r := stripEnd t
    if r.isEmpty && pySpace c then [] else c :: r

/-- Python `str.strip()` with no argument: drop leading and trailing
whitespace. -/
def strip (s : List Char) : List Char := stripEnd (s.dropWhile pySpace)

/-- Python `str.split('\n')`: split at every newline, keeping empty pieces. -/
def splitNl : List Char → List (List Char)
  | [] => [[]]
  | c :: s =>
    if c = '\n' then [] :: splitNl s
    else
      match splitNl s with
      | [] => [[c]]
      | t :: ts => (c :: t) :: ts

/-- Helper for `pyWords`: accumulates the current word (reversed). -/
def pyWordsAux : List Char → List Char → List (List Char)
  | acc, [] => if acc.isEmpty then [] else [acc.reverse]
  | acc, c :: s =>
    if pySpace c then
      if acc.isEmpty then pyWordsAux [] s else acc.reverse :: pyWordsAux [] s
    else pyWordsAux (c :: acc) s

/-- Python `str.split()` with no argument: the maximal whitespace-free runs. -/
def pyWords (s : List Char) : List (List Char) := pyWordsAux [] s

/-- The source's name heuristic for one line:
`len(line.split()) > 2 and len(line) > 10`. -/
def nameQual (l : List Char) : Bool :=
  decide (2 < (pyWords l).length) && decide (10 < l.length)

/-- The source's `non_empty_lines`: stripped, non-empty lines of the raw
text, in order. -/
def nonEmptyLines (raw : List Char) : List (List Char) :=
  ((splitNl raw).map strip).filter (fun l => !l.isEmpty)

/-- Name extractor of `extract_event_info`: first line passing `nameQual`,
else the first non-empty line, else absent. -/
def extractName (raw : List Char) : Option (List Char) :=
  match (nonEmptyLines raw).find? nameQual with
  | some l => some l
  | none => (nonEmptyLines raw).head?

/-- The source's pattern loop: try each pattern with `re.findall`, keep the
first match of the first pattern that matches anything, then stop. -/
def firstFamily : List Re → List Char → Option (List Char)
  | [], _ => none
  | p :: ps, raw =>
    match firstMatchStr p raw with
    | some v => some v
    | none => firstFamily ps raw

/-- Date-text extractor: the three date patterns in strict priority order. -/
def extractDateText (raw : List Char) : Option (List Char) :=
  firstFamily [dateP1, dateP2, dateP3] raw

/-- Time extractor: the four time patterns in strict priority order. -/
def extractTime (raw : List Char) : Option (List Char) :=
  firstFamily [timeP1, timeP2, timeP3, timeP4] raw

/-- Location extractor: the street-address pattern first (full match), then
the at/venue pattern (whose `re.findall` yields the capture group). -/
def extractLocation (raw : List Char) : Option (List Char) :=
  match firstMatchStr locP1 raw with
  | some v => some v
  | none =>
    (searchGP locP2pre locP2grp none raw).map
      (fun t => (raw.drop (t.1 + t.2.1)).take t.2.2)

/-- All host capture groups, all four patterns applied in source order and
every match of every pattern collected (`hosts.extend(host_matches)`). -/
def hostGroups (raw : List Char) : List (List Char) :=
  findallG hostPre1 hostGrp raw ++ findallG hostPre2 hostGrp raw ++
  findallG hostPre3 hostGrp raw ++ findallG hostPre4 hostGrp raw

/-- Hosts extractor: `', '.join(hosts)` when any pattern matched, else absent. -/
def extractHosts (raw : List Char) : Option (List Char) :=
  let gs := hostGroups raw
  if gs.isEmpty then none else some (List.intercalate ", ".data gs)

/-- Case-sensitive "is a leading segment of" test. -/
def eqPre : List Char → List Char → Bool
  | [], _ => true
  | _ :: _, [] => false
  | a :: l, b :: s => a == b && eqPre l s

/-- Case-sensitive contiguous-substring test. -/
def isSub (t : List Char) : List Char → Bool
  | [] => eqPre t []
  | c :: s1 => eqPre t (c :: s1) || isSub t s1

/-- Worker for `replaceAll`: removes every non-overlapping occurrence of the
non-empty `pat`, scanning left to right, like Python `str.replace(pat, '')`.
The fuel argument only serves structural recursion; every step either drops
the whole pattern (length at least one) or one character, so fuel equal to
the string length never runs out. -/
def replaceAllGo (pat : List Char) : Nat → List Char → List Char
  | 0, s => s
  | _, [] => []
  | fuel + 1, c :: t =>
    if eqPre pat (c :: t) then replaceAllGo pat fuel (t.drop (pat.length - 1))
    else c :: replaceAllGo pat fuel t

/-- Python `s.replace(pat, '')`: removes every occurrence of `pat`
(the identity when `pat` is empty, as in Python with an empty replacement). -/
def replaceAll (s pat : List Char) : List Char :=
  if pat.isEmpty then s else replaceAllGo pat s.length s

/-- Worker for `removeFirst`. -/
def removeFirstGo (pat : List Char) : List Char → List Char
  | [] => []
  | c :: t =>
    if eqPre pat (c :: t) then t.drop (pat.length - 1)
    else c :: removeFirstGo pat t

/-- Removal of only the first occurrence of `pat` (what the specification's
description of the Description Synthesizer asks for). -/
def removeFirst (s pat : List Char) : List Char :=
  if pat.isEmpty then s else removeFirstGo pat s

/-- Stripped non-empty lines of the post-removal text (the source's
`description_lines`). -/
def descrLines (rem : List Char) : List (List Char) :=
  ((splitNl rem).map strip).filter (fun l => !l.isEmpty)

/-- Join with single spaces (`' '.join`). -/
def joinWords (ls : List (List Char)) : List Char := List.intercalate [' '] ls

/-- Description synthesis of `extract_event_info`: remove each used field
value from the raw text with `str.replace` (all occurrences), then keep the
non-empty stripped lines with more than three words, joined by spaces. -/
def extractDescription (raw : List Char) (nv dv tv lv hv : Option (List Char)) :
    Option (List Char) :=
  let used := ([nv, dv, tv, lv, hv].filterMap id).filter (fun t => !t.isEmpty)
  let remaining := used.foldl replaceAll raw
  let dls := descrLines remaining
  if dls.isEmpty then none
  else
    let d := joinWords (dls.filter (fun l => decide (3 < (pyWords l).length)))
    if d.isEmpty then none else some d

/-- The extracted-fields record of `OCRProcessor.extracted_info` (the
`event_date` key holds the extracted date text, as in the source). -/
structure Info where
  event_name : Option (List Char)
  event_location : Option (List Char)
  event_date : Option (List Char)
  event_time : Option (List Char)
  event_description : Option (List Char)
  event_hosts : Option (List Char)
deriving DecidableEq

/-- The whole of `OCRProcessor.extract_event_info` as a pure function of the
raw OCR text. -/
def extract_event_info (raw : List Char) : Info :=
  let nv := extractName raw
  let dv := extractDateText raw
  let tv := extractTime raw
  let lv := extractLocation raw
  let hv := extractHosts raw
  { event_name := nv
    event_location := lv
    event_date := dv
    event_time := tv
    event_description := extractDescription raw nv dv tv lv hv
    event_hosts := hv }

/-- The Description Synthesizer as the specification words it, generic in
the removal operator applied for each non-absent field value (in the order
name, date, time, location, hosts). -/
def synthDesc (rem : List Char → List Char → List Char) (raw : List Char)
    (nv dv tv lv hv : Option (List Char)) : Option (List Char) :=
  let used := [nv, dv, tv, lv, hv].filterMap id
  let remaining := used.foldl rem raw
  let dls := descrLines remaining
  if dls.isEmpty then none
  else
    let d := joinWords (dls.filter (fun l => decide (3 < (pyWords l).length)))
    if d.isEmpty then none else some d

/-- The name extractor as the specification words it: the first non-empty
trimmed line with more than two words and more than ten characters, else
the first non-empty line, else absent. -/
def specName (raw : List Char) : Option (List Char) :=
  let nel := nonEmptyLines raw
  match (nel.filter nameQual).head? with
  | some l => some l
  | none => nel.head?

/-- A calendar date (year, month, day), the payload of `datetime.date`. -/
structure PDate where
  year : Nat
  month : Nat
  day : Nat
deriving DecidableEq

/-- Gregorian leap-year test. -/
def leapYear (y : Nat) : Bool := y % 4 = 0 && (y % 100 ≠ 0 || y % 400 = 0)

/-- Number of days in a month, as `datetime.date` validates. -/
def daysInMonth (y m : Nat) : Nat :=
  if m = 2 then (if leapYear y then 29 else 28)
  else if m = 4 || m = 6 || m = 9 || m = 11 then 30 else 31

def digitCh (c : Char) : Bool := 48 ≤ c.toNat && c.toNat ≤ 57

def alphaCh (c : Char) : Bool :=
  (65 ≤ c.toNat && c.toNat ≤ 90) || (97 ≤ c.toNat && c.toNat ≤ 122)

/-- Numeric value of a digit string. -/
def digitsVal (l : List Char) : Nat := l.foldl (fun a c => a * 10 + (c.toNat - 48)) 0

/-- Helper splitting a string into maximal alphanumeric runs. -/
def tokenAux : List Char → List Char → List (List Char)
  | acc, [] => if acc.isEmpty then [] else [acc.reverse]
  | acc, c :: s =>
    if digitCh c || alphaCh c then tokenAux (c :: acc) s
    else if acc.isEmpty then tokenAux [] s else acc.reverse :: tokenAux [] s

/-- The alphanumeric tokens of a date string. -/
def dateTokens (s : List Char) : List (List Char) := tokenAux [] s

/-- Case-insensitive token equality. -/
def ciTok (a b : List Char) : Bool := a.length == b.length && ciPre a b

/-- Month number of a month-name token (full names and three-letter
abbreviations, case-insensitive), if any. -/
def monthNum (t : List Char) : Option Nat :=
  let names : List (List Char × List Char × Nat) :=
    [("Jan".data, "January".data, 1), ("Feb".data, "February".data, 2),
     ("Mar".data, "March".data, 3), ("Apr".data, "April".data, 4),
     ("May".data, "May".data, 5), ("Jun".data, "June".data, 6),
     ("Jul".data, "July".data, 7), ("Aug".data, "August".data, 8),
     ("Sep".data, "September".data, 9), ("Oct".data, "October".data, 10),
     ("Nov".data, "November".data, 11), ("Dec".data, "December".data, 12)]
  (names.find? (fun p => ciTok t p.1 || ciTok t p.2.1)).map (fun p => p.2.2)

/-- Day value of a token: one or two digits, optionally followed by an
ordinal suffix (st/nd/rd/th), with value between 1 and 31. -/
def dayNum (t : List Char) : Option Nat :=
  let ds := t.takeWhile digitCh
  let rest := t.dropWhile digitCh
  if ds.isEmpty || decide (2 < ds.length) then none
  else if !(rest.isEmpty || ciTok rest "st".data || ciTok rest "nd".data ||
            ciTok rest "rd".data || ciTok rest "th".data) then none
  else
    let v := digitsVal ds
    if 1 ≤ v && v ≤ 31 then some v else none

/-- Year value of a token: exactly four digits. -/
def yearNum (t : List Char) : Option Nat :=
  if t.length == 4 && t.all digitCh then some (digitsVal t) else none

/-- Modelled from the spec: the external fuzzy natural-language date parser
(`dateutil.parser.parse(..., fuzzy=True)` followed by `.date()`), which is a
third-party capability, not part of this repository's sources. Per the
specification it tolerates surrounding non-date tokens and infers a missing
year from the current date (`today`); it fails (raises) when no date can be
recognised or the day is out of range, and produces only a calendar date. -/
def fuzzyParse (today : PDate) (s : List Char) : Option PDate :=
  let toks := dateTokens s
  match toks.findSome? monthNum with
  | none => none
  | some m =>
    match toks.findSome? dayNum with
    | none => none
    | some d =>
      let y := (toks.findSome? yearNum).getD today.year
      if 1 ≤ d && d ≤ daysInMonth y m then some ⟨y, m, d⟩ else none

/-- The whole of `OCRProcessor.parse_date`: absent date text gives an absent
date, and any parser failure is swallowed (`except: return None`), so the
function is total and never surfaces an error. `today` makes the parser's
ambient current date explicit. -/
def parse_date (today : PDate) (info : Info) : Option PDate :=
  match info.event_date with
  | none => none
  | some t => fuzzyParse today t

/-- The filesystem as far as one pipeline run observes it: whether the
transient preprocessed image (`..._processed.png`) currently exists. -/
structure FSState where
  tempExists : Bool
deriving DecidableEq

/-- Effect of `OCRProcessor.preprocess_image`: `cv2.imwrite` creates the
transient normalized image and the method returns its path. -/
def preprocess_image (_fs : FSState) : FSState := { tempExists := true }

/-- Outcome of the external `pytesseract.image_to_string` call: a text, or a
raised recognition error. -/
inductive OcrResult where
  | ok (text : List Char)
  | failure

/-- Effect model of `OCRProcessor.extract_text`: preprocess (writes the
transient image), then recognize; only when recognition returns normally do
the `os.path.exists`/`os.remove` lines run. A raised recognition error
propagates before the cleanup lines, leaving the transient file in place. -/
def extract_text (ocr : OcrResult) (fs : FSState) : FSState × Option (List Char) :=
  let fs1 := preprocess_image fs
  match ocr with
  | .ok t => ({ fs1 with tempExists := false }, some t)
  | .failure => (fs1, none)

/-- Digit tests for the `%m` component regex `1[0-2]|0[1-9]|[1-9]` of
CPython `strptime`. -/
def twoDigitMonth (a b : Char) : Bool :=
  (a = '1' && (b = '0' || b = '1' || b = '2')) || (a = '0' && digitCh b && b ≠ '0')

/-- Digit tests for the `%d` component regex `3[01]|[12]\d|0[1-9]|[1-9]`. -/
def twoDigitDay (a b : Char) : Bool :=
  (a = '3' && (b = '0' || b = '1')) || ((a = '1' || a = '2') && digitCh b) ||
  (a = '0' && digitCh b && b ≠ '0')

/-- Month-then-rest parse for the `%m` field. -/
def parseMonthPart : List Char → Option (Nat × List Char)
  | a :: b :: r => if digitCh a && digitCh b && twoDigitMonth a b then
      some (digitsVal [a, b], r)
    else if digitCh a && a ≠ '0' then some (digitsVal [a], b :: r) else none
  | [a] => if digitCh a && a ≠ '0' then some (digitsVal [a], []) else none
  | [] => none

/-- Day-then-rest parse for the `%d` field. -/
def parseDayPart : List Char → Option (Nat × List Char)
  | a :: b :: r => if digitCh a && digitCh b && twoDigitDay a b then
      some (digitsVal [a, b], r)
    else if digitCh a && a ≠ '0' then some (digitsVal [a], b :: r) else none
  | [a] => if digitCh a && a ≠ '0' then some (digitsVal [a], []) else none
  | [] => none

/-- CPython `datetime.strptime(s, '%Y-%m-%d').date()` as used by
`update_event`: exactly four year digits, a hyphen, a one/two-digit month,
a hyphen, a one/two-digit day, nothing left over, and a calendar-valid
date (otherwise `strptime`/`date` raises and the caller's `except` ignores
the update). -/
def parseYMD (s : List Char) : Option PDate :=
  let y := s.take 4
  if !(y.length == 4 && y.all digitCh) then none
  else
    match s.drop 4 with
    | '-' :: r1 =>
      match parseMonthPart r1 with
      | none => none
      | some (m, r2) =>
        match r2 with
        | '-' :: r3 =>
          match parseDayPart r3 with
          | none => none
          | some (d, r4) =>
            if r4.isEmpty && 1 ≤ digitsVal y && d ≤ daysInMonth (digitsVal y) m then
              some ⟨digitsVal y, m, d⟩
            else none
        | _ => none
    | _ => none

/-- A stored event record, as far as `update_event` touches it. -/
structure EventRec where
  event_name : Option (List Char)
  event_location : Option (List Char)
  event_date : Option PDate
  event_time : Option (List Char)
  event_description : Option (List Char)
  event_hosts : Option (List Char)
deriving DecidableEq

/-- The JSON body of a PUT `/api/events/<id>` request: `none` means the key
is absent from the payload. -/
structure UpdateData where
  event_name : Option (List Char)
  event_location : Option (List Char)
  event_date : Option (List Char)
  event_time : Option (List Char)
  event_description : Option (List Char)
  event_hosts : Option (List Char)
deriving DecidableEq

/-- The field-update logic of the `update_event` route: every supplied field
replaces the stored one, except that a supplied date string goes through
`datetime.strptime(..., '%Y-%m-%d')` and, on failure, the bare
`except: pass` leaves the stored date unchanged while the rest of the
update still happens. -/
def update_event (e : EventRec) (d : UpdateData) : EventRec :=
  { event_name := match d.event_name with | some v => some v | none => e.event_name
    event_location := match d.event_location with | some v => some v | none => e.event_location
    event_date := match d.event_date with
      | none => e.event_date
      | some s => match parseYMD s with
        | some dt => some dt
        | none => e.event_date
    event_time := match d.event_time with | some v => some v | none => e.event_time
    event_description := match d.event_description with | some v => some v | none => e.event_description
    event_hosts := match d.event_hosts with | some v => some v | none => e.event_hosts }

theorem eqPre_iff {t s : List Char} : eqPre t s = true ↔ ∃ v, s = t ++ v := by
  induction t generalizing s with
  | nil => simp [eqPre]
  | cons a l ih =>
    cases s with
    | nil => simp [eqPre]
    | cons b s1 =>
      simp only [eqPre, Bool.and_eq_true, beq_iff_eq, ih, List.cons_append,
        List.cons.injEq]
      constructor
      · rintro ⟨rfl, v, rfl⟩; exact ⟨v, rfl, rfl⟩
      · rintro ⟨v, rfl, rfl⟩; exact ⟨rfl, v, rfl⟩

theorem isSub_iff {t s : List Char} : isSub t s = true ↔ ∃ u v, s = u ++ t ++ v := by
  induction s with
  | nil =>
    simp only [isSub, eqPre_iff]
    constructor
    · rintro ⟨v, hv⟩; exact ⟨[], v, by simpa using hv⟩
    · rintro ⟨u, v, huv⟩
      rcases List.append_eq_nil.mp huv.symm with ⟨h2, rfl⟩
      rcases List.append_eq_nil.mp h2 with ⟨rfl, rfl⟩
      exact ⟨[], rfl⟩
  | cons c s1 ih =>
    simp only [isSub, Bool.or_eq_true, eqPre_iff, ih]
    constructor
    · rintro (⟨v, hv⟩ | ⟨u, v, rfl⟩)
      · exact ⟨[], v, by simpa using hv⟩
      · exact ⟨c :: u, v, rfl⟩
    · rintro ⟨u, v, huv⟩
      cases u with
      | nil => exact Or.inl ⟨v, by simpa using huv⟩
      | cons c2 u1 =>
        rcases List.cons.injEq .. ▸ huv with ⟨rfl, h2⟩
        exact Or.inr ⟨u1, v, by simpa using h2⟩

theorem isSub_trans {a b c : List Char} (h1 : isSub a b = true)
    (h2 : isSub b c = true) : isSub a c = true := by
  rcases isSub_iff.mp h1 with ⟨u1, v1, rfl⟩
  rcases isSub_iff.mp h2 with ⟨u2, v2, rfl⟩
  exact isSub_iff.mpr ⟨u2 ++ u1, v1 ++ v2, by simp⟩

theorem isSub_drop_take (s : List Char) (i n : Nat) :
    isSub ((s.drop i).take n) s = true := by
  refine isSub_iff.mpr ⟨s.take i, (s.drop i).drop n, ?_⟩
  rw [List.append_assoc, List.take_append_drop, List.take_append_drop]

theorem isSub_drop (s : List Char) (i : Nat) : isSub (s.drop i) s = true := by
  refine isSub_iff.mpr ⟨s.take i, [], ?_⟩
  rw [List.append_nil, List.take_append_drop]

theorem isSub_of_eqPre {t s : List Char} (h : eqPre t s = true) : isSub t s = true := by
  rcases eqPre_iff.mp h with ⟨v, rfl⟩
  exact isSub_iff.mpr ⟨[], v, rfl⟩

theorem stripEnd_eqPre (t : List Char) : eqPre (stripEnd t) t = true := by
  induction t with
  | nil => simp [stripEnd, eqPre]
  | cons c t ih =>
    simp only [stripEnd]
    split
    · simp [eqPre]
    · simpa [eqPre] using ih

theorem isSub_dropWhile (p : Char → Bool) (s : List Char) :
    isSub (s.dropWhile p) s = true :=
  isSub_iff.mpr ⟨s.takeWhile p, [], by simp⟩

theorem isSub_strip (l : List Char) : isSub (strip l) l = true :=
  isSub_trans (isSub_of_eqPre (stripEnd_eqPre _)) (isSub_dropWhile _ _)

theorem stripEnd_head {t : List Char} {c : Char} {r : List Char}
    (h : stripEnd t = c :: r) : t.head? = some c := by
  cases t with
  | nil => simp [stripEnd] at h
  | cons a t1 =>
    simp only [stripEnd] at h
    split at h
    · cases h
    · simp_all

theorem stripEnd_idem (t : List Char) : stripEnd (stripEnd t) = stripEnd t := by
  induction t with
  | nil => simp [stripEnd]
  | cons c t ih =>
    simp only [stripEnd]
    split
    · simp [stripEnd]
    · rename_i hcond
      simp only [stripEnd, ih]
      split
      · exact absurd (by assumption) hcond
      · rfl

theorem strip_head_nonspace {l : List Char} {c : Char} {r : List Char}
    (h : strip l = c :: r) : pySpace c = false := by
  have h2 : (l.dropWhile pySpace).head? = some c := stripEnd_head h
  have h3 := List.head?_dropWhile_not pySpace l
  rw [h2] at h3
  exact h3

theorem strip_idem (l : List Char) : strip (strip l) = strip l := by
  cases h : strip l with
  | nil => simp [strip, stripEnd, List.dropWhile]
  | cons c r =>
    have hc : pySpace c = false := strip_head_nonspace h
    have h1 : (c :: r).dropWhile pySpace = c :: r := by
      simp [List.dropWhile_cons, hc]
    have h2 : stripEnd (c :: r) = c :: r := by
      have := stripEnd_idem (l.dropWhile pySpace)
      rw [show stripEnd (l.dropWhile pySpace) = c :: r from h] at this
      exact this
    simp [strip, h1, h2]

theorem stripEnd_cons (c : Char) (t : List Char) :
    stripEnd (c :: t) = if (stripEnd t).isEmpty && pySpace c then [] else c :: stripEnd t :=
  rfl

theorem stripEnd_eq_self {s : List Char} {c : Char}
    (h : s.getLast? = some c) (hc : pySpace c = false) : stripEnd s = s := by
  induction s with
  | nil => simp at h
  | cons a t ih =>
    cases t with
    | nil =>
      simp only [List.getLast?_singleton, Option.some.injEq] at h
      subst h
      simp [stripEnd, hc]
    | cons b t1 =>
      rw [List.getLast?_cons_cons] at h
      have ht : stripEnd (b :: t1) = b :: t1 := ih h
      rw [stripEnd_cons, ht]
      simp

theorem strip_eq_self {s : List Char} {a c : Char}
    (hh : s.head? = some a) (ha : pySpace a = false)
    (hl : s.getLast? = some c) (hc : pySpace c = false) : strip s = s := by
  cases s with
  | nil => simp at hh
  | cons x t =>
    simp only [List.head?_cons, Option.some.injEq] at hh
    subst hh
    simp only [strip, List.dropWhile_cons, ha, Bool.false_eq_true, if_false]
    exact stripEnd_eq_self hl hc

theorem mem_downFrom {n k lo : Nat} : n ∈ downFrom k lo ↔ lo ≤ n ∧ n ≤ k := by
  simp only [downFrom, List.mem_map, List.mem_range]
  constructor
  · rintro ⟨j, hj, rfl⟩; omega
  · rintro ⟨h1, h2⟩; exact ⟨k - n, by omega, by omega⟩

theorem runLen_le_length (c : CC) (s : List Char) : runLen c s ≤ s.length := by
  induction s with
  | nil => simp [runLen]
  | cons a t ih =>
    simp only [runLen, List.length_cons]
    split <;> omega

theorem runLen_head {c : CC} {s : List Char} (h : 1 ≤ runLen c s) :
    ∃ a t, s = a :: t ∧ CC.mem c a = true := by
  cases s with
  | nil => simp [runLen] at h
  | cons a t =>
    refine ⟨a, t, rfl, ?_⟩
    by_contra hc
    simp only [runLen, Bool.not_eq_true] at h hc
    rw [hc] at h
    simp at h

theorem runLen_idx {c : CC} {s : List Char} :
    ∀ {j : Nat}, j < runLen c s → ∃ a, s[j]? = some a ∧ CC.mem c a = true := by
  induction s with
  | nil => intro j h; simp [runLen] at h
  | cons a t ih =>
    intro j h
    simp only [runLen] at h
    split at h
    · cases j with
      | zero => exact ⟨a, by simp, by assumption⟩
      | succ j1 =>
        rcases @ih j1 (by omega) with ⟨b, hb, hmb⟩
        exact ⟨b, by simpa using hb, hmb⟩
    · omega

theorem ciPre_length {l s : List Char} (h : ciPre l s = true) : l.length ≤ s.length := by
  induction l generalizing s with
  | nil => simp
  | cons a l1 ih =>
    cases s with
    | nil => simp [ciPre] at h
    | cons b s1 =>
      simp only [ciPre, Bool.and_eq_true] at h
      have := ih h.2
      simp only [List.length_cons]
      omega

theorem ciPre_idx {l s : List Char} (h : ciPre l s = true) :
    ∀ {j : Nat} {a : Char}, l[j]? = some a → ∃ b, s[j]? = some b ∧ ciEq a b = true := by
  induction l generalizing s with
  | nil => intro j a hj; simp at hj
  | cons x l1 ih =>
    cases s with
    | nil => simp [ciPre] at h
    | cons b s1 =>
      simp only [ciPre, Bool.and_eq_true] at h
      intro j a hj
      cases j with
      | zero =>
        simp only [List.getElem?_cons_zero, Option.some.injEq] at hj
        exact ⟨b, by simp, hj ▸ h.1⟩
      | succ j1 =>
        rcases ih h.2 (by simpa using hj) with ⟨y, hy, hcy⟩
        exact ⟨y, by simpa using hy, hcy⟩

theorem mem_seq {a b : Re} {prev : Option Char} {s : List Char} {n : Nat} :
    n ∈ matchLens (.seq a b) prev s ↔
      ∃ n1 n2, n1 ∈ matchLens a prev s ∧
        n2 ∈ matchLens b (prevAt prev s n1) (s.drop n1) ∧ n = n1 + n2 := by
  simp only [matchLens, List.mem_flatMap, List.mem_map]
  constructor
  · rintro ⟨n1, h1, n2, h2, rfl⟩; exact ⟨n1, n2, h1, h2, rfl⟩
  · rintro ⟨n1, n2, h1, h2, rfl⟩; exact ⟨n1, h1, n2, h2, rfl⟩

theorem matchLens_le {r : Re} :
    ∀ {prev : Option Char} {s : List Char} {n : Nat}, n ∈ matchLens r prev s → n ≤ s.length := by
  induction r with
  | eps => intro prev s n h; simp only [matchLens, List.mem_singleton] at h; omega
  | wb =>
    intro prev s n h
    simp only [matchLens] at h
    split at h <;> simp_all
  | cls c =>
    intro prev s n h
    simp only [matchLens] at h
    split at h
    · simp at h
    · split at h <;> simp_all
  | rep c lo hi =>
    intro prev s n h
    simp only [matchLens] at h
    split at h
    · simp at h
    · have := mem_downFrom.mp h
      have := runLen_le_length c s
      omega
  | star c =>
    intro prev s n h
    have := mem_downFrom.mp h
    have := runLen_le_length c s
    omega
  | plus c =>
    intro prev s n h
    have := mem_downFrom.mp h
    have := runLen_le_length c s
    omega
  | lit l =>
    intro prev s n h
    simp only [matchLens] at h
    split at h
    · simp only [List.mem_singleton] at h
      subst h
      exact ciPre_length (by assumption)
    · simp at h
  | seq a b iha ihb =>
    intro prev s n h
    rcases mem_seq.mp h with ⟨n1, n2, h1, h2, rfl⟩
    have ha := iha h1
    have hb := ihb h2
    simp only [List.length_drop] at hb
    omega
  | alt a b iha ihb =>
    intro prev s n h
    simp only [matchLens, List.mem_append] at h
    rcases h with h | h
    · exact iha h
    · exact ihb h
  | opt a iha =>
    intro prev s n h
    simp only [matchLens, List.mem_append, List.mem_singleton] at h
    rcases h with h | rfl
    · exact iha h
    · omega

/-- Classes none of whose members are whitespace. -/
def ccNoSp : CC → Bool
  | .digit => true
  | .space => false
  | .alnumSpAmp => false
  | .alnumSpComma => false
  | .slashDash => true

/-- Whether a literal's first character is not whitespace. -/
def litFirstNS : List Char → Bool
  | [] => true
  | c :: _ => !pySpace c

/-- Whether a literal's last character is not whitespace. -/
def litLastNS (l : List Char) : Bool :=
  match l.getLast? with
  | none => true
  | some c => !pySpace c

/-- Syntactic analysis: every match of the pattern consumes at least one
character. -/
def minOne : Re → Bool
  | .eps => false
  | .wb => false
  | .cls _ => true
  | .rep _ lo _ => decide (1 ≤ lo)
  | .star _ => false
  | .plus _ => true
  | .lit l => !l.isEmpty
  | .seq a b => minOne a || minOne b
  | .alt a b => minOne a && minOne b
  | .opt _ => false

/-- Syntactic analysis: every non-empty match starts with a non-whitespace
character. -/
def firstNS : Re → Bool
  | .eps => true
  | .wb => true
  | .cls c => ccNoSp c
  | .rep c _ _ => ccNoSp c
  | .star c => ccNoSp c
  | .plus c => ccNoSp c
  | .lit l => litFirstNS l
  | .seq a b => if minOne a then firstNS a else firstNS a && firstNS b
  | .alt a b => firstNS a && firstNS b
  | .opt a => firstNS a

/-- Syntactic analysis: every non-empty match ends with a non-whitespace
character. -/
def lastNS : Re → Bool
  | .eps => true
  | .wb => true
  | .cls c => ccNoSp c
  | .rep c _ _ => ccNoSp c
  | .star c => ccNoSp c
  | .plus c => ccNoSp c
  | .lit l => litLastNS l
  | .seq a b => if minOne b then lastNS b else lastNS a && lastNS b
  | .alt a b => lastNS a && lastNS b
  | .opt a => lastNS a

theorem ccNoSp_sound {c : CC} {a : Char} (h1 : ccNoSp c = true)
    (h2 : CC.mem c a = true) : pySpace a = false := by
  cases c
  case digit =>
    simp only [CC.mem, Bool.and_eq_true, decide_eq_true_eq] at h2
    simp only [pySpace, Bool.or_eq_false_iff, decide_eq_false_iff_not]
    omega
  case space => exact absurd h1 (by decide)
  case alnumSpAmp => exact absurd h1 (by decide)
  case alnumSpComma => exact absurd h1 (by decide)
  case slashDash =>
    simp only [CC.mem, Bool.or_eq_true, decide_eq_true_eq] at h2
    simp only [pySpace, Bool.or_eq_false_iff, decide_eq_false_iff_not]
    omega

theorem ciEq_nonspace {a b : Char} (h : ciEq a b = true) (ha : pySpace a = false) :
    pySpace b = false := by
  simp only [ciEq, decide_eq_true_eq, lowN] at h
  simp only [pySpace, Bool.or_eq_false_iff, decide_eq_false_iff_not] at ha ⊢
  split at h <;> split at h <;> omega

theorem mem_alt {a b : Re} {prev : Option Char} {s : List Char} {n : Nat} :
    n ∈ matchLens (.alt a b) prev s ↔
      n ∈ matchLens a prev s ∨ n ∈ matchLens b prev s := by
  simp [matchLens]

theorem mem_opt {a : Re} {prev : Option Char} {s : List Char} {n : Nat} :
    n ∈ matchLens (.opt a) prev s ↔ n ∈ matchLens a prev s ∨ n = 0 := by
  simp [matchLens]

theorem minOne_sound {r : Re} (hr : minOne r = true) :
    ∀ {prev : Option Char} {s : List Char} {n : Nat}, n ∈ matchLens r prev s → 1 ≤ n := by
  induction r with
  | eps => simp [minOne] at hr
  | wb => simp [minOne] at hr
  | cls c =>
    intro prev s n h
    simp only [matchLens] at h
    split at h
    · simp at h
    · split at h <;> simp_all
  | rep c lo hi =>
    intro prev s n h
    simp only [minOne, decide_eq_true_eq] at hr
    simp only [matchLens] at h
    split at h
    · simp at h
    · have := mem_downFrom.mp h; omega
  | star c => simp [minOne] at hr
  | plus c =>
    intro prev s n h
    have := mem_downFrom.mp h; omega
  | lit l =>
    intro prev s n h
    simp only [matchLens] at h
    split at h
    · simp only [List.mem_singleton] at h
      subst h
      cases l with
      | nil => simp [minOne] at hr
      | cons a l1 => simp
    · simp at h
  | seq a b iha ihb =>
    intro prev s n h
    rcases mem_seq.mp h with ⟨n1, n2, h1, h2, rfl⟩
    simp only [minOne, Bool.or_eq_true] at hr
    rcases hr with hr | hr
    · have := iha hr h1; omega
    · have := ihb hr h2; omega
  | alt a b iha ihb =>
    intro prev s n h
    simp only [minOne, Bool.and_eq_true] at hr
    rcases mem_alt.mp h with h | h
    · exact iha hr.1 h
    · exact ihb hr.2 h
  | opt a iha => simp [minOne] at hr

theorem firstNS_sound {r : Re} (hr : firstNS r = true) :
    ∀ {prev : Option Char} {s : List Char} {n : Nat},
      n ∈ matchLens r prev s → 1 ≤ n → ∃ c t, s = c :: t ∧ pySpace c = false := by
  induction r with
  | eps => intro prev s n h h1; simp only [matchLens, List.mem_singleton] at h; omega
  | wb =>
    intro prev s n h h1
    simp only [matchLens] at h
    split at h <;> simp_all
  | cls c =>
    intro prev s n h h1
    simp only [firstNS] at hr
    cases s with
    | nil => simp [matchLens] at h
    | cons a t =>
      simp only [matchLens] at h
      split at h
      · exact ⟨a, t, rfl, ccNoSp_sound hr (by assumption)⟩
      · simp at h
  | rep c lo hi =>
    intro prev s n h h1
    simp only [firstNS] at hr
    simp only [matchLens] at h
    split at h
    · simp at h
    · have hm := mem_downFrom.mp h
      have hrun : 1 ≤ runLen c s := by omega
      rcases runLen_head hrun with ⟨a, t, rfl, hma⟩
      exact ⟨a, t, rfl, ccNoSp_sound hr hma⟩
  | star c =>
    intro prev s n h h1
    simp only [firstNS] at hr
    have hm := mem_downFrom.mp h
    have hrun : 1 ≤ runLen c s := by omega
    rcases runLen_head hrun with ⟨a, t, rfl, hma⟩
    exact ⟨a, t, rfl, ccNoSp_sound hr hma⟩
  | plus c =>
    intro prev s n h h1
    simp only [firstNS] at hr
    have hm := mem_downFrom.mp h
    have hrun : 1 ≤ runLen c s := by omega
    rcases runLen_head hrun with ⟨a, t, rfl, hma⟩
    exact ⟨a, t, rfl, ccNoSp_sound hr hma⟩
  | lit l =>
    intro prev s n h h1
    simp only [matchLens] at h
    split at h
    · rename_i hci
      simp only [List.mem_singleton] at h
      subst h
      cases l with
      | nil => simp at h1
      | cons a l1 =>
        cases s with
        | nil => simp [ciPre] at hci
        | cons b s1 =>
          simp only [ciPre, Bool.and_eq_true] at hci
          refine ⟨b, s1, rfl, ?_⟩
          have ha : pySpace a = false := by
            simpa [firstNS, litFirstNS] using hr
          exact ciEq_nonspace hci.1 ha
    · simp at h
  | seq a b iha ihb =>
    intro prev s n h h1
    rcases mem_seq.mp h with ⟨n1, n2, hm1, hm2, rfl⟩
    simp only [firstNS] at hr
    split at hr
    · have hn1 := minOne_sound (by assumption) hm1
      exact iha hr hm1 hn1
    · simp only [Bool.and_eq_true] at hr
      by_cases hz : n1 = 0
      · subst hz
        simp only [List.drop_zero] at hm2
        exact ihb hr.2 hm2 (by omega)
      · exact iha hr.1 hm1 (by omega)
  | alt a b iha ihb =>
    intro prev s n h h1
    simp only [firstNS, Bool.and_eq_true] at hr
    rcases mem_alt.mp h with h | h
    · exact iha hr.1 h h1
    · exact ihb hr.2 h h1
  | opt a iha =>
    intro prev s n h h1
    simp only [firstNS] at hr
    rcases mem_opt.mp h with h | rfl
    · exact iha hr h h1
    · omega

theorem lastNS_sound {r : Re} (hr : lastNS r = true) :
    ∀ {prev : Option Char} {s : List Char} {n : Nat},
      n ∈ matchLens r prev s → 1 ≤ n → ∃ c, s[n - 1]? = some c ∧ pySpace c = false := by
  induction r with
  | eps => intro prev s n h h1; simp only [matchLens, List.mem_singleton] at h; omega
  | wb =>
    intro prev s n h h1
    simp only [matchLens] at h
    split at h <;> simp_all
  | cls c =>
    intro prev s n h h1
    simp only [lastNS] at hr
    cases s with
    | nil => simp [matchLens] at h
    | cons a t =>
      simp only [matchLens] at h
      split at h
      · simp only [List.mem_singleton] at h
        subst h
        exact ⟨a, by simp, ccNoSp_sound hr (by assumption)⟩
      · simp at h
  | rep c lo hi =>
    intro prev s n h h1
    simp only [lastNS] at hr
    simp only [matchLens] at h
    split at h
    · simp at h
    · have hm := mem_downFrom.mp h
      have hlt : n - 1 < runLen c s := by omega
      rcases runLen_idx hlt with ⟨aa, haa, hmaa⟩
      exact ⟨aa, haa, ccNoSp_sound hr hmaa⟩
  | star c =>
    intro prev s n h h1
    simp only [lastNS] at hr
    have hm := mem_downFrom.mp h
    have hlt : n - 1 < runLen c s := by omega
    rcases runLen_idx hlt with ⟨aa, haa, hmaa⟩
    exact ⟨aa, haa, ccNoSp_sound hr hmaa⟩
  | plus c =>
    intro prev s n h h1
    simp only [lastNS] at hr
    have hm := mem_downFrom.mp h
    have hlt : n - 1 < runLen c s := by omega
    rcases runLen_idx hlt with ⟨aa, haa, hmaa⟩
    exact ⟨aa, haa, ccNoSp_sound hr hmaa⟩
  | lit l =>
    intro prev s n h h1
    simp only [matchLens] at h
    split at h
    · rename_i hci
      simp only [List.mem_singleton] at h
      subst h
      have hlast : ∃ a, l.getLast? = some a ∧ pySpace a = false := by
        cases hg : l.getLast? with
        | none =>
          have hnil : l = [] := List.getLast?_eq_none_iff.mp hg
          subst hnil; simp at h1
        | some a =>
          refine ⟨a, rfl, ?_⟩
          have hr2 : litLastNS l = true := by simpa [lastNS] using hr
          simp only [litLastNS, hg] at hr2
          simpa using hr2
      rcases hlast with ⟨a, hg, hna⟩
      have hidx : l[l.length - 1]? = some a := by
        rw [← List.getLast?_eq_getElem?]; exact hg
      rcases ciPre_idx hci hidx with ⟨b, hb, hcb⟩
      exact ⟨b, hb, ciEq_nonspace hcb hna⟩
    · simp at h
  | seq a b iha ihb =>
    intro prev s n h h1
    rcases mem_seq.mp h with ⟨n1, n2, hm1, hm2, rfl⟩
    simp only [lastNS] at hr
    split at hr
    · have hn2 := minOne_sound (by assumption) hm2
      rcases ihb hr hm2 hn2 with ⟨c, hc, hnc⟩
      rw [List.getElem?_drop] at hc
      refine ⟨c, ?_, hnc⟩
      rw [show n1 + n2 - 1 = n1 + (n2 - 1) by omega]
      exact hc
    · simp only [Bool.and_eq_true] at hr
      by_cases hz : n2 = 0
      · subst hz
        rcases iha hr.1 hm1 (by omega) with ⟨c, hc, hnc⟩
        exact ⟨c, by simpa using hc, hnc⟩
      · rcases ihb hr.2 hm2 (by omega) with ⟨c, hc, hnc⟩
        rw [List.getElem?_drop] at hc
        refine ⟨c, ?_, hnc⟩
        rw [show n1 + n2 - 1 = n1 + (n2 - 1) by omega]
        exact hc
  | alt a b iha ihb =>
    intro prev s n h h1
    simp only [lastNS, Bool.and_eq_true] at hr
    rcases mem_alt.mp h with h | h
    · exact iha hr.1 h h1
    · exact ihb hr.2 h h1
  | opt a iha =>
    intro prev s n h h1
    simp only [lastNS] at hr
    rcases mem_opt.mp h with h | rfl
    · exact iha hr h h1
    · omega

theorem head?_mem_of {α : Type} {l : List α} {a : α} (h : l.head? = some a) : a ∈ l := by
  cases l <;> simp_all

theorem take_ne_nil {l : List Char} {n : Nat} (h1 : 1 ≤ n) (h2 : n ≤ l.length) :
    l.take n ≠ [] := by
  cases l with
  | nil => simp at h2; omega
  | cons a t =>
    cases n with
    | zero => omega
    | succ m => simp

theorem search1P_sound {r : Re} {prev0 : Option Char} {s : List Char} {i n : Nat}
    (h : search1P r prev0 s = some (i, n)) :
    i ≤ s.length ∧ n ∈ matchLens r (prevIdxP prev0 s i) (s.drop i) := by
  rcases List.exists_of_findSome?_eq_some h with ⟨j, hj, hfj⟩
  cases hh : (matchLens r (prevIdxP prev0 s j) (s.drop j)).head? with
  | none => rw [hh] at hfj; simp at hfj
  | some m =>
    rw [hh] at hfj
    simp only [Option.map_some', Option.some.injEq, Prod.mk.injEq] at hfj
    obtain ⟨rfl, rfl⟩ := hfj
    have := List.mem_range.mp hj
    exact ⟨by omega, head?_mem_of hh⟩

theorem search1P_of_pos {r : Re} {prev0 : Option Char} {s : List Char} (i : Nat)
    (hle : i ≤ s.length)
    (hne : matchLens r (prevIdxP prev0 s i) (s.drop i) ≠ []) :
    search1P r prev0 s ≠ none := by
  intro hnone
  have hall := List.findSome?_eq_none_iff.mp hnone
  have hi : i ∈ List.range (s.length + 1) := List.mem_range.mpr (by omega)
  have hthis := hall i hi
  cases hh : (matchLens r (prevIdxP prev0 s i) (s.drop i)).head? with
  | none => exact hne (List.head?_eq_none_iff.mp hh)
  | some m => rw [hh] at hthis; simp at hthis

theorem searchGP_sound {pre grp : Re} {prev0 : Option Char} {s : List Char}
    {i np ng : Nat} (h : searchGP pre grp prev0 s = some (i, np, ng)) :
    i ≤ s.length ∧ np ∈ matchLens pre (prevIdxP prev0 s i) (s.drop i) ∧
      ng ∈ matchLens (.seq grp .wb) (prevAt (prevIdxP prev0 s i) (s.drop i) np)
        ((s.drop i).drop np) := by
  rcases List.exists_of_findSome?_eq_some h with ⟨j, hj, hfj⟩
  cases hh : tryAtG pre grp prev0 s j with
  | none => rw [hh] at hfj; simp at hfj
  | some p =>
    rw [hh] at hfj
    simp only [Option.map_some', Option.some.injEq, Prod.mk.injEq] at hfj
    obtain ⟨rfl, hp1, hp2⟩ := hfj
    have hpmem := head?_mem_of hh
    rcases List.mem_flatMap.mp hpmem with ⟨np1, hnp1, hmem⟩
    rcases List.mem_map.mp hmem with ⟨ng1, hng1, heq⟩
    have hq1 : np1 = np := by rw [← hp1, ← heq]
    have hq2 : ng1 = ng := by rw [← hp2, ← heq]
    subst hq1; subst hq2
    have := List.mem_range.mp hj
    exact ⟨by omega, hnp1, hng1⟩

theorem matchVal_good {r : Re} {raw : List Char} {i n : Nat}
    (h : search1 r raw = some (i, n)) (h1 : minOne r = true)
    (h2 : firstNS r = true) (h3 : lastNS r = true) :
    (raw.drop i).take n ≠ [] ∧ isSub ((raw.drop i).take n) raw = true ∧
      strip ((raw.drop i).take n) = (raw.drop i).take n := by
  rcases search1P_sound h with ⟨hle, hmem⟩
  have hn1 : 1 ≤ n := minOne_sound h1 hmem
  have hnle : n ≤ (raw.drop i).length := matchLens_le hmem
  rcases firstNS_sound h2 hmem hn1 with ⟨c, t, hct, hc⟩
  rcases lastNS_sound h3 hmem hn1 with ⟨d, hd, hdn⟩
  refine ⟨take_ne_nil hn1 hnle, isSub_drop_take raw i n, ?_⟩
  have hhead : ((raw.drop i).take n).head? = some c := by
    rw [hct]
    cases n with
    | zero => omega
    | succ m => simp
  have hlen : ((raw.drop i).take n).length = n := List.length_take_of_le hnle
  have hlast : ((raw.drop i).take n).getLast? = some d := by
    rw [List.getLast?_eq_getElem?, hlen, List.getElem?_take_of_lt (by omega)]
    exact hd
  exact strip_eq_self hhead hc hlast hdn

theorem findallGAux_good {pre grp : Re} (hg : minOne grp = true) :
    ∀ (fuel : Nat) (prev0 : Option Char) (s g : List Char),
      g ∈ findallGAux pre grp fuel prev0 s → g ≠ [] ∧ isSub g s = true := by
  intro fuel
  induction fuel with
  | zero => intro prev0 s g h; simp [findallGAux] at h
  | succ f ih =>
    intro prev0 s g h
    simp only [findallGAux] at h
    cases hs : searchGP pre grp prev0 s with
    | none => rw [hs] at h; simp at h
    | some t =>
      obtain ⟨i, np, ng⟩ := t
      rw [hs] at h
      simp only [List.mem_cons] at h
      rcases h with rfl | h
      · rcases searchGP_sound hs with ⟨hle, hpre, hgrp⟩
        have hseq : minOne (Re.seq grp .wb) = true := by simp [minOne, hg]
        have h1 : 1 ≤ ng := minOne_sound hseq hgrp
        have hng : ng ≤ ((s.drop i).drop np).length := matchLens_le hgrp
        rw [List.drop_drop] at hng
        exact ⟨take_ne_nil h1 hng, isSub_drop_take s (i + np) ng⟩
      · rcases ih _ _ _ h with ⟨hne, hsub⟩
        exact ⟨hne, isSub_trans hsub (isSub_drop _ _)⟩

theorem mem_wb {prev : Option Char} {s : List Char} {n : Nat} :
    n ∈ matchLens .wb prev s ↔ n = 0 ∧ boundary prev s.head? = true := by
  simp only [matchLens]
  split <;> simp_all

theorem mem_rep {c : CC} {lo hi : Nat} {prev : Option Char} {s : List Char} {n : Nat} :
    n ∈ matchLens (.rep c lo hi) prev s ↔ lo ≤ n ∧ n ≤ min (runLen c s) hi := by
  simp only [matchLens]
  split
  · rename_i hk
    simp only [List.not_mem_nil, false_iff]
    omega
  · exact mem_downFrom

theorem mem_star {c : CC} {prev : Option Char} {s : List Char} {n : Nat} :
    n ∈ matchLens (.star c) prev s ↔ n ≤ runLen c s := by
  simp only [matchLens]
  rw [mem_downFrom]
  omega

theorem mem_lit {l : List Char} {prev : Option Char} {s : List Char} {n : Nat} :
    n ∈ matchLens (.lit l) prev s ↔ ciPre l s = true ∧ n = l.length := by
  simp only [matchLens]
  split <;> simp_all

theorem prevAt_zero (p : Option Char) (l : List Char) : prevAt p l 0 = p := rfl

theorem prevAt_pos (p : Option Char) (l : List Char) {n : Nat} (h : n ≠ 0) :
    prevAt p l n = l[n - 1]? := by
  simp [prevAt, h]

theorem prevIdxP_pos (p : Option Char) (s : List Char) {q : Nat} (h : q ≠ 0) :
    prevIdxP p s q = s[q - 1]? := by
  simp [prevIdxP, h]

theorem digit_word {a : Char} (h : CC.mem .digit a = true) : wordChar a = true := by
  simp only [CC.mem, Bool.and_eq_true, decide_eq_true_eq] at h
  simp only [wordChar, Bool.or_eq_true, Bool.and_eq_true, decide_eq_true_eq]
  omega

theorem ciEq_colon {b : Char} (h : ciEq ':' b = true) : wordChar b = false := by
  have hc : (':' : Char).toNat = 58 := rfl
  simp only [ciEq, decide_eq_true_eq, lowN, hc] at h
  simp only [wordChar, Bool.or_eq_false_iff, Bool.and_eq_false_iff,
    decide_eq_false_iff_not]
  split at h <;> split at h <;> omega

theorem timeP3_member_timeP2 {s : List Char} {i n : Nat}
    (hi : i ≤ s.length)
    (h : n ∈ matchLens timeP3 (prevIdxP none s i) (s.drop i)) :
    search1 timeP2 s ≠ none := by
  have hnlen : n ≤ (s.drop i).length := matchLens_le h
  rw [List.length_drop] at hnlen
  simp only [timeP3] at h
  rcases mem_seq.mp h with ⟨b0, m0, hb0, h0, hn⟩
  rcases mem_wb.mp hb0 with ⟨hb0z, hbound0⟩
  subst hb0z
  rw [prevAt_zero, List.drop_zero] at h0
  rcases mem_seq.mp h0 with ⟨a1, m1, ha1, h1, hm0⟩
  rw [List.drop_drop] at h1
  rcases mem_seq.mp h1 with ⟨a2, m2, ha2, h2, hm1⟩
  simp only [colonLit] at ha2
  rcases mem_lit.mp ha2 with ⟨hci1, ha2v⟩
  have ha2v1 : a2 = 1 := by simpa using ha2v
  subst ha2v1
  rw [List.drop_drop] at h2
  rcases mem_seq.mp h2 with ⟨a3, m3, ha3, h3, hm2⟩
  simp only [d2] at ha3
  rcases mem_rep.mp ha3 with ⟨ha3lo, ha3hi⟩
  have ha3v : a3 = 2 := by omega
  subst ha3v
  rw [List.drop_drop] at h3
  rcases mem_seq.mp h3 with ⟨a4, m4, ha4, h4, hm3⟩
  rw [List.drop_drop] at h4
  rcases mem_seq.mp h4 with ⟨a5, m5, ha5, h5, hm4⟩
  rw [List.drop_drop] at h5
  rcases mem_seq.mp h5 with ⟨a6, m6, ha6, h6, hm5⟩
  rw [List.drop_drop] at h6
  rcases mem_seq.mp h6 with ⟨a7, m7, ha7, h7, hm6⟩
  rw [List.drop_drop] at h7
  rcases mem_seq.mp h7 with ⟨a8, m8, ha8, h8, hm7⟩
  simp only [colonLit] at ha8
  rcases mem_lit.mp ha8 with ⟨hci2, ha8v⟩
  have ha8v1 : a8 = 1 := by simpa using ha8v
  subst ha8v1
  rw [List.drop_drop] at h8
  rcases mem_seq.mp h8 with ⟨a9, m9, ha9, h9, hm8⟩
  simp only [d2] at ha9
  rcases mem_rep.mp ha9 with ⟨ha9lo, ha9hi⟩
  have ha9v : a9 = 2 := by omega
  subst ha9v
  have hrun : 2 ≤ runLen CC.digit (s.drop (i + a1 + 1 + 2 + a4 + a5 + a6 + a7 + 1)) := by
    omega
  have hcolon : ∃ b, s[i + a1 + 1 + 2 + a4 + a5 + a6 + a7]? = some b ∧ ciEq ':' b = true := by
    cases hsp : s.drop (i + a1 + 1 + 2 + a4 + a5 + a6 + a7) with
    | nil => rw [hsp] at hci2; simp [ciPre] at hci2
    | cons b t =>
      rw [hsp] at hci2
      simp only [ciPre, Bool.and_eq_true] at hci2
      refine ⟨b, ?_, hci2.1⟩
      rw [← List.head?_drop, hsp]
      rfl
  obtain ⟨b, hsb, hcb⟩ := hcolon
  rcases runLen_head (show 1 ≤ runLen CC.digit
      (s.drop (i + a1 + 1 + 2 + a4 + a5 + a6 + a7 + 1)) by omega) with ⟨da, dt, hda, hdmem⟩
  have hQle : i + a1 + 1 + 2 + a4 + a5 + a6 + a7 + 1 ≤ s.length := by omega
  have hmem2 : (0 + (2 + m9)) ∈ matchLens timeP2
      (prevIdxP none s (i + a1 + 1 + 2 + a4 + a5 + a6 + a7 + 1))
      (s.drop (i + a1 + 1 + 2 + a4 + a5 + a6 + a7 + 1)) := by
    simp only [timeP2]
    refine mem_seq.mpr ⟨0, 2 + m9, ?_, ?_, rfl⟩
    · refine mem_wb.mpr ⟨rfl, ?_⟩
      rw [prevIdxP_pos _ _ (by omega)]
      rw [show i + a1 + 1 + 2 + a4 + a5 + a6 + a7 + 1 - 1 =
        i + a1 + 1 + 2 + a4 + a5 + a6 + a7 from by omega]
      rw [hsb, hda]
      simp [boundary, ciEq_colon hcb, digit_word hdmem]
    · rw [prevAt_zero, List.drop_zero]
      refine mem_seq.mpr ⟨2, m9, ?_, ?_, rfl⟩
      · simp only [d12]
        exact mem_rep.mpr ⟨by omega, by omega⟩
      · rw [prevAt_pos _ _ (by omega)]
        rw [prevAt_pos _ _ (by omega)] at h9
        exact h9
  have hne : matchLens timeP2
      (prevIdxP none s (i + a1 + 1 + 2 + a4 + a5 + a6 + a7 + 1))
      (s.drop (i + a1 + 1 + 2 + a4 + a5 + a6 + a7 + 1)) ≠ [] :=
    List.ne_nil_of_mem hmem2
  show search1P timeP2 none s ≠ none
  exact search1P_of_pos _ hQle hne

theorem splitNl_headPre : ∀ (s : List Char) {t : List Char} {ts : List (List Char)},
    splitNl s = t :: ts → eqPre t s = true := by
  intro s
  induction s with
  | nil =>
    intro t ts h
    simp only [splitNl, List.cons.injEq] at h
    rw [← h.1]
    rfl
  | cons c s1 ih =>
    intro t ts h
    simp only [splitNl] at h
    split at h
    · injection h with h1 h2
      rw [← h1]
      rfl
    · cases hsp : splitNl s1 with
      | nil =>
        rw [hsp] at h
        injection h with h1 h2
        rw [← h1]
        simp [eqPre]
      | cons t0 ts0 =>
        rw [hsp] at h
        injection h with h1 h2
        rw [← h1]
        have hp := ih hsp
        simp [eqPre, hp]

theorem splitNl_sub : ∀ (s : List Char) {l : List Char},
    l ∈ splitNl s → isSub l s = true := by
  intro s
  induction s with
  | nil =>
    intro l h
    simp only [splitNl, List.mem_singleton] at h
    subst h
    rfl
  | cons c s1 ih =>
    intro l h
    simp only [splitNl] at h
    split at h
    · rcases List.mem_cons.mp h with rfl | h2
      · rfl
      · have hs := ih h2
        rw [show isSub l (c :: s1) = (eqPre l (c :: s1) || isSub l s1) from rfl, hs,
          Bool.or_true]
    · cases hsp : splitNl s1 with
      | nil =>
        rw [hsp] at h
        simp only [List.mem_singleton] at h
        subst h
        simp [isSub, eqPre]
      | cons t0 ts0 =>
        rw [hsp] at h
        rcases List.mem_cons.mp h with rfl | h2
        · have hp := splitNl_headPre s1 hsp
          exact isSub_of_eqPre (by simp [eqPre, hp])
        · have hmem : l ∈ splitNl s1 := by rw [hsp]; exact List.mem_cons_of_mem _ h2
          have hs := ih hmem
          rw [show isSub l (c :: s1) = (eqPre l (c :: s1) || isSub l s1) from rfl, hs,
            Bool.or_true]

theorem nonEmptyLines_good {raw l : List Char} (h : l ∈ nonEmptyLines raw) :
    l ≠ [] ∧ isSub l raw = true ∧ strip l = l := by
  simp only [nonEmptyLines, List.mem_filter, List.mem_map] at h
  rcases h with ⟨⟨l0, hl0, rfl⟩, hne⟩
  refine ⟨by simpa using hne, ?_, strip_idem l0⟩
  exact isSub_trans (isSub_strip l0) (splitNl_sub raw hl0)

theorem firstFamily_good (ps : List Re)
    (hall : ∀ p ∈ ps, minOne p = true ∧ firstNS p = true ∧ lastNS p = true) :
    ∀ {raw v : List Char}, firstFamily ps raw = some v →
      v ≠ [] ∧ isSub v raw = true ∧ strip v = v := by
  induction ps with
  | nil => intro raw v h; simp [firstFamily] at h
  | cons p ps ih =>
    intro raw v h
    simp only [firstFamily] at h
    cases hp : firstMatchStr p raw with
    | some w =>
      rw [hp] at h
      simp only [Option.some.injEq] at h
      subst h
      cases hs : search1 p raw with
      | none => simp [firstMatchStr, hs] at hp
      | some pr =>
        obtain ⟨i, n⟩ := pr
        have hw : w = (raw.drop i).take n := by
          simp only [firstMatchStr, hs, Option.map_some', Option.some.injEq] at hp
          exact hp.symm
        subst hw
        have hh := hall p (List.mem_cons_self p ps)
        exact matchVal_good hs hh.1 hh.2.1 hh.2.2
    | none =>
      rw [hp] at h
      exact ih (fun q hq => hall q (List.mem_cons_of_mem p hq)) h

theorem find?_eq_head_filter {α : Type} (p : α → Bool) (l : List α) :
    l.find? p = (l.filter p).head? := by
  induction l with
  | nil => rfl
  | cons a t ih =>
    by_cases h : p a
    · rw [List.find?_cons_of_pos _ h, List.filter_cons_of_pos h]
      rfl
    · rw [List.find?_cons_of_neg _ h, List.filter_cons_of_neg h, ih]

theorem foldl_replaceAll_filter (l : List (List Char)) (a : List Char) :
    (l.filter (fun t => !t.isEmpty)).foldl replaceAll a = l.foldl replaceAll a := by
  induction l generalizing a with
  | nil => rfl
  | cons x t ih =>
    cases hx : x.isEmpty with
    | true =>
      have hxe : x = [] := by cases x <;> simp_all
      subst hxe
      rw [show List.filter (fun t => !t.isEmpty) ([] :: t) =
          List.filter (fun t => !t.isEmpty) t from by simp,
        List.foldl_cons, show replaceAll a [] = a from rfl]
      exact ih a
    | false =>
      rw [show List.filter (fun t => !t.isEmpty) (x :: t) =
          x :: List.filter (fun t => !t.isEmpty) t from by
            simp [List.filter_cons, hx],
        List.foldl_cons, List.foldl_cons]
      exact ih (replaceAll a x)

theorem extract_name_eq (raw : List Char) :
    (extract_event_info raw).event_name = extractName raw := rfl

theorem extract_date_eq (raw : List Char) :
    (extract_event_info raw).event_date = extractDateText raw := rfl

theorem extract_time_eq (raw : List Char) :
    (extract_event_info raw).event_time = extractTime raw := rfl

theorem extract_location_eq (raw : List Char) :
    (extract_event_info raw).event_location = extractLocation raw := rfl

theorem extract_hosts_eq (raw : List Char) :
    (extract_event_info raw).event_hosts = extractHosts raw := rfl

theorem extract_descr_eq (raw : List Char) :
    (extract_event_info raw).event_description =
      extractDescription raw (extractName raw) (extractDateText raw)
        (extractTime raw) (extractLocation raw) (extractHosts raw) := rfl

theorem findallG_good {pre grp : Re} (hg : minOne grp = true) {s g : List Char}
    (h : g ∈ findallG pre grp s) : g ≠ [] ∧ isSub g s = true :=
  findallGAux_good hg _ _ _ _ h

/-- Claim C3, counterexample: the claim says the transient normalized-image
artifact no longer exists when the run ends even when text recognition
fails, but `extract_text` has no try/finally — when
`pytesseract.image_to_string` raises, the `os.remove` lines never run and
the `_processed.png` file is still on storage at the end of the run. -/
theorem claim_C3_counterexample :
    ¬ ((extract_text .failure ⟨false⟩).1.tempExists = false) := by
  decide

/-- Claim C3, amended: after a run in which recognition returns normally
the transient preprocessed image has been deleted, but after a run in which
recognition raises, the transient image remains on storage. -/
theorem claim_C3_amended :
    (∀ (t : List Char) (fs : FSState),
      (extract_text (.ok t) fs).1.tempExists = false ∧
        (extract_text (.ok t) fs).2 = some t) ∧
    (∀ fs : FSState,
      (extract_text .failure fs).1.tempExists = true ∧
        (extract_text .failure fs).2 = none) :=
  ⟨fun _ _ => ⟨rfl, rfl⟩, fun _ => ⟨rfl, rfl⟩⟩

/-- Claim C7: `parse_date` yields an absent date when the extracted date
text is absent; the fuzzy parser turns the date text `Dec 25th, 2024` into
the calendar date 2024-12-25 (for any ambient current date); and an
unparseable text such as `TBD` yields an absent date — the parse failure is
swallowed, never surfaced (the function is total). -/
theorem claim_C7 (today : PDate) (nv lv tv dsv hv : Option (List Char)) :
    parse_date today ⟨nv, lv, none, tv, dsv, hv⟩ = none ∧
    parse_date today ⟨nv, lv, some "Dec 25th, 2024".data, tv, dsv, hv⟩ =
      some ⟨2024, 12, 25⟩ ∧
    parse_date today ⟨nv, lv, some "TBD".data, tv, dsv, hv⟩ = none :=
  ⟨rfl, rfl, rfl⟩

/-- Claim C9: on an update, a supplied date string is parsed by the strict
`%Y-%m-%d` `strptime` (not the fuzzy Date Normalizer); a well-formed
`YYYY-MM-DD` literal replaces the stored date, any malformed string leaves
the stored date unchanged with no error (the update function is total), and
the other supplied fields are updated regardless. The concrete parts show
`2024-12-25` parsing, `12/25/2024` and `TBD` being rejected, and full
updates where a malformed date leaves the date while the name still
changes. -/
theorem claim_C9 (e : EventRec) (d : UpdateData) :
    ((update_event e d).event_date = match d.event_date with
      | none => e.event_date
      | some s => match parseYMD s with
        | some dt => some dt
        | none => e.event_date) ∧
    ((update_event e d).event_name = match d.event_name with
      | some v => some v | none => e.event_name) ∧
    ((update_event e d).event_location = match d.event_location with
      | some v => some v | none => e.event_location) ∧
    ((update_event e d).event_time = match d.event_time with
      | some v => some v | none => e.event_time) ∧
    ((update_event e d).event_description = match d.event_description with
      | some v => some v | none => e.event_description) ∧
    ((update_event e d).event_hosts = match d.event_hosts with
      | some v => some v | none => e.event_hosts) ∧
    parseYMD "2024-12-25".data = some ⟨2024, 12, 25⟩ ∧
    parseYMD "12/25/2024".data = none ∧
    parseYMD "TBD".data = none ∧
    update_event ⟨some "A".data, none, some ⟨2024, 1, 1⟩, none, none, none⟩
      ⟨some "B".data, none, some "not-a-date".data, none, none, none⟩ =
      ⟨some "B".data, none, some ⟨2024, 1, 1⟩, none, none, none⟩ ∧
    update_event ⟨some "A".data, none, some ⟨2024, 1, 1⟩, none, none, none⟩
      ⟨none, none, some "2024-12-25".data, none, none, none⟩ =
      ⟨some "A".data, none, some ⟨2024, 12, 25⟩, none, none, none⟩ :=
  ⟨rfl, rfl, rfl, rfl, rfl, rfl, by decide, by decide, by decide, by decide, by decide⟩

/-- Claim C5: date extraction tries the three pattern families in strict
priority order — month-name form, then numeric form, then weekday form —
takes the first match of the first family that yields any match and never
consults later families after one succeeds; in particular, on text
containing both `12/25/2024` and `December 25, 2024` the month-name family
wins and the extracted date text is `December 25, 2024`. -/
theorem claim_C5 (raw : List Char) :
    ((extract_event_info raw).event_date =
      match firstMatchStr dateP1 raw with
      | some v => some v
      | none => match firstMatchStr dateP2 raw with
        | some v => some v
        | none => firstMatchStr dateP3 raw) ∧
    (extract_event_info "12/25/2024 December 25, 2024".data).event_date =
      some "December 25, 2024".data := by
  refine ⟨?_, by decide⟩
  rw [extract_date_eq]
  simp only [extractDateText, firstFamily]
  cases firstMatchStr dateP1 raw <;> cases firstMatchStr dateP2 raw <;>
    cases firstMatchStr dateP3 raw <;> rfl

/-- Claim C6: time extraction tries the four time-pattern families in
strict priority order (`H:MM am/pm`, then `H am/pm`, then the `H:MM` range
form, then the `H am/pm` range form) and takes the first match of the first
family with any match; in particular `Doors 9:00 pm, ends 1:00 am` yields
`9:00 pm`, not a range form. -/
theorem claim_C6 (raw : List Char) :
    ((extract_event_info raw).event_time =
      match firstMatchStr timeP1 raw with
      | some v => some v
      | none => match firstMatchStr timeP2 raw with
        | some v => some v
        | none => match firstMatchStr timeP3 raw with
          | some v => some v
          | none => firstMatchStr timeP4 raw) ∧
    (extract_event_info "Doors 9:00 pm, ends 1:00 am".data).event_time =
      some "9:00 pm".data := by
  refine ⟨?_, by decide⟩
  rw [extract_time_eq]
  simp only [extractTime, firstFamily]
  cases firstMatchStr timeP1 raw <;> cases firstMatchStr timeP2 raw <;>
    cases firstMatchStr timeP3 raw <;> cases firstMatchStr timeP4 raw <;> rfl

/-- Claim C8: name extraction selects the first non-empty trimmed line with
more than two words and more than ten characters; if no line qualifies it
falls back to the first non-empty trimmed line, and it is absent when the
raw text has no non-empty lines (`specName` is the specification's own
wording of this selection). In particular
`Hi\nSummer Rooftop Party With Friends\nDJ Bob` yields
`Summer Rooftop Party With Friends`. -/
theorem claim_C8 (raw : List Char) :
    (extract_event_info raw).event_name = specName raw ∧
    (extract_event_info "Hi\nSummer Rooftop Party With Friends\nDJ Bob".data).event_name =
      some "Summer Rooftop Party With Friends".data := by
  refine ⟨?_, by decide⟩
  rw [extract_name_eq]
  simp only [extractName, specName]
  rw [find?_eq_head_filter]

/-- Claim C4, counterexample: the claim asserts that any text containing
both `DJ Max` and `featuring Luna` yields `event_hosts == "Max, Luna"`, but
on `DJ Max featuring Luna` the greedy `[A-Za-z0-9\s&]+` capture of the `DJ`
pattern swallows the following words, so the code produces
`Max featuring Luna, Luna` instead. -/
theorem claim_C4_counterexample :
    isSub "DJ Max".data "DJ Max featuring Luna".data = true ∧
    isSub "featuring Luna".data "DJ Max featuring Luna".data = true ∧
    (extract_event_info "DJ Max featuring Luna".data).event_hosts ≠
      some "Max, Luna".data ∧
    (extract_event_info "DJ Max featuring Luna".data).event_hosts =
      some "Max featuring Luna, Luna".data := by
  decide

/-- Claim C4, amended: all four host patterns are applied — not
first-wins — and every capture of every pattern is collected into one
comma-and-space-joined string in pattern-then-match order (`hostGroups`);
`event_hosts` is absent exactly when no pattern matches anywhere. The
example text needs a separator the capture class cannot cross:
`DJ Max, featuring Luna` yields `Max, Luna`, while an unmatched text yields
an absent field. -/
theorem claim_C4_amended (raw : List Char) :
    ((extract_event_info raw).event_hosts =
      if (hostGroups raw).isEmpty then none
      else some (List.intercalate ", ".data (hostGroups raw))) ∧
    (extract_event_info "DJ Max, featuring Luna".data).event_hosts =
      some "Max, Luna".data ∧
    (extract_event_info "Just a plain line".data).event_hosts = none := by
  refine ⟨?_, by decide, by decide⟩
  rw [extract_hosts_eq]
  rfl

/-- Claim C1, counterexample: the claim says the Description Synthesizer
removes only the first occurrence of each field value, leaving later
occurrences in place. The code uses `str.replace(value, '')`, which removes
every occurrence: on a flyer whose name line appears twice, the code's
description omits the repeated name line, while the claimed
first-occurrence-only algorithm (`synthDesc removeFirst`) keeps it. -/
theorem claim_C1_counterexample :
    (extract_event_info "Neon Gala Night Live\nNeon Gala Night Live\nCome join us all friends".data).event_name =
      some "Neon Gala Night Live".data ∧
    (extract_event_info "Neon Gala Night Live\nNeon Gala Night Live\nCome join us all friends".data).event_date = none ∧
    (extract_event_info "Neon Gala Night Live\nNeon Gala Night Live\nCome join us all friends".data).event_time = none ∧
    (extract_event_info "Neon Gala Night Live\nNeon Gala Night Live\nCome join us all friends".data).event_location = none ∧
    (extract_event_info "Neon Gala Night Live\nNeon Gala Night Live\nCome join us all friends".data).event_hosts = none ∧
    (extract_event_info "Neon Gala Night Live\nNeon Gala Night Live\nCome join us all friends".data).event_description =
      some "Come join us all friends".data ∧
    synthDesc removeFirst "Neon Gala Night Live\nNeon Gala Night Live\nCome join us all friends".data
      (some "Neon Gala Night Live".data) none none none none =
      some "Neon Gala Night Live Come join us all friends".data := by
  decide

/-- Claim C1, amended: for every raw text and the extracted field values,
the Description Synthesizer removes, for each non-absent field value in the
order name, date, time, location, hosts, EVERY literal occurrence of that
value from the working copy (each later removal operating on the already
reduced text), then keeps only non-empty trimmed lines with more than three
words joined by single spaces. -/
theorem claim_C1_amended (raw : List Char) :
    (extract_event_info raw).event_description =
      synthDesc replaceAll raw (extractName raw) (extractDateText raw)
        (extractTime raw) (extractLocation raw) (extractHosts raw) := by
  rw [extract_descr_eq]
  simp only [extractDescription, synthDesc]
  rw [foldl_replaceAll_filter]

/-- Claim C2, counterexample: the claim asserts every non-description value
is a substring of the raw text, in particular the joined `event_hosts` even
when several host patterns match. On `DJ Max, featuring Luna` the hosts
field is the join `Max, Luna`, which is not a substring of the raw text. -/
theorem claim_C2_counterexample :
    (extract_event_info "DJ Max, featuring Luna".data).event_hosts =
      some "Max, Luna".data ∧
    isSub "Max, Luna".data "DJ Max, featuring Luna".data = false := by
  decide

/-- Claim C2, amended: after extraction, `event_name`, `event_date` (the
date text) and `event_time` are each absent or a non-empty trimmed
substring of the raw text; `event_location` is absent or a non-empty
substring (the venue pattern's capture can carry leading whitespace, so
trimmedness is not guaranteed there); and `event_hosts` is absent or the
comma-and-space join of the non-empty captured substrings — the join itself
need not be a substring of the raw text. -/
theorem claim_C2_amended (raw : List Char) :
    ((extract_event_info raw).event_name.elim True
      (fun v => v ≠ [] ∧ isSub v raw = true ∧ strip v = v)) ∧
    ((extract_event_info raw).event_date.elim True
      (fun v => v ≠ [] ∧ isSub v raw = true ∧ strip v = v)) ∧
    ((extract_event_info raw).event_time.elim True
      (fun v => v ≠ [] ∧ isSub v raw = true ∧ strip v = v)) ∧
    ((extract_event_info raw).event_location.elim True
      (fun v => v ≠ [] ∧ isSub v raw = true)) ∧
    ((extract_event_info raw).event_hosts.elim True
      (fun v => hostGroups raw ≠ [] ∧
        v = List.intercalate ", ".data (hostGroups raw) ∧
        (hostGroups raw).all (fun g => !g.isEmpty && isSub g raw) = true)) := by
  refine ⟨?_, ?_, ?_, ?_, ?_⟩
  · rw [extract_name_eq]
    cases hn : extractName raw with
    | none => exact True.intro
    | some l =>
      have hmem : l ∈ nonEmptyLines raw := by
        simp only [extractName] at hn
        cases hf : (nonEmptyLines raw).find? nameQual with
        | some l2 =>
          rw [hf] at hn
          simp only [Option.some.injEq] at hn
          subst hn
          exact List.mem_of_find?_eq_some hf
        | none =>
          rw [hf] at hn
          exact head?_mem_of hn
      exact nonEmptyLines_good hmem
  · rw [extract_date_eq]
    cases hd : extractDateText raw with
    | none => exact True.intro
    | some v =>
      refine firstFamily_good [dateP1, dateP2, dateP3] ?_ hd
      intro p hp
      simp only [List.mem_cons, List.not_mem_nil, or_false] at hp
      rcases hp with rfl | rfl | rfl <;> exact ⟨by decide, by decide, by decide⟩
  · rw [extract_time_eq]
    cases ht : extractTime raw with
    | none => exact True.intro
    | some v =>
      refine firstFamily_good [timeP1, timeP2, timeP3, timeP4] ?_ ht
      intro p hp
      simp only [List.mem_cons, List.not_mem_nil, or_false] at hp
      rcases hp with rfl | rfl | rfl | rfl <;> exact ⟨by decide, by decide, by decide⟩
  · rw [extract_location_eq]
    cases hl : extractLocation raw with
    | none => exact True.intro
    | some v =>
      simp only [extractLocation] at hl
      cases hf : firstMatchStr locP1 raw with
      | some w =>
        rw [hf] at hl
        simp only [Option.some.injEq] at hl
        subst hl
        cases hs : search1 locP1 raw with
        | none => simp [firstMatchStr, hs] at hf
        | some pr =>
          obtain ⟨i, n⟩ := pr
          have hw : w = (raw.drop i).take n := by
            simp only [firstMatchStr, hs, Option.map_some', Option.some.injEq] at hf
            exact hf.symm
          subst hw
          have hg := matchVal_good hs (by decide) (by decide) (by decide)
          exact ⟨hg.1, hg.2.1⟩
      | none =>
        rw [hf] at hl
        cases hsg : searchGP locP2pre locP2grp none raw with
        | none => rw [hsg] at hl; simp at hl
        | some t =>
          obtain ⟨i, np, ng⟩ := t
          rw [hsg] at hl
          simp only [Option.map_some', Option.some.injEq] at hl
          subst hl
          rcases searchGP_sound hsg with ⟨hle, hpre, hgrp⟩
          have hseq : minOne (Re.seq locP2grp .wb) = true := by decide
          have h1 := minOne_sound hseq hgrp
          have h2 := matchLens_le hgrp
          rw [List.drop_drop] at h2
          exact ⟨take_ne_nil h1 h2, isSub_drop_take raw (i + np) ng⟩
  · rw [extract_hosts_eq]
    simp only [extractHosts]
    cases hg : (hostGroups raw).isEmpty with
    | true => simp
    | false =>
      simp only [Bool.false_eq_true, if_false]
      refine ⟨by intro he; rw [he] at hg; simp at hg, rfl, ?_⟩
      rw [List.all_eq_true]
      intro g hgm
      have hmin : minOne hostGrp = true := by decide
      have hgood : g ≠ [] ∧ isSub g raw = true := by
        simp only [hostGroups, List.mem_append] at hgm
        rcases hgm with ((h1 | h2) | h3) | h4
        · exact findallG_good hmin h1
        · exact findallG_good hmin h2
        · exact findallG_good hmin h3
        · exact findallG_good hmin h4
      simp only [Bool.and_eq_true, Bool.not_eq_true', List.isEmpty_eq_false]
      exact ⟨by simpa using hgood.1, hgood.2⟩

/-- Claim C10, counterexample: the claim says that whenever the third
time-pattern family (the `H:MM - H:MM am/pm` range form) matches, the FIRST
family (`H:MM am/pm`) also matches inside that range text. On
`9:00to11:30pm` the range pattern matches the whole string, yet the first
family has no match anywhere (no word boundary precedes an `H:MM` that is
directly followed by am/pm); it is the SECOND family that matches (`30pm`),
and it determines the extracted time. -/
theorem claim_C10_counterexample :
    (search1 timeP3 "9:00to11:30pm".data).isSome = true ∧
    search1 timeP1 "9:00to11:30pm".data = none ∧
    (extract_event_info "9:00to11:30pm".data).event_time = some "30pm".data := by
  decide

/-- Claim C10, amended: whenever the third time-pattern family matches, the
SECOND family (`H am/pm`) necessarily also matches — its witness is the
minutes of the range's second time, which are preceded by a colon (a word
boundary) and followed by the same optional space and am/pm tail. Under the
first-family-with-a-match-wins policy the third family can therefore never
be the one that determines `event_time`, and `event_time` is never of the
`H:MM - H:MM` range form. -/
theorem claim_C10_amended (s : List Char) (h : search1 timeP3 s ≠ none) :
    search1 timeP2 s ≠ none := by
  cases hs : search1 timeP3 s with
  | none => exact absurd hs h
  | some p =>
    obtain ⟨i, n⟩ := p
    simp only [search1] at hs
    rcases search1P_sound hs with ⟨hi, hmem⟩
    exact timeP3_member_timeP2 hi hmem

/-- Claim C10, witness: on `9:00to11:30pm` the third family matches, and
the amended theorem then yields a second-family match. -/
theorem claim_C10_witness : search1 timeP2 "9:00to11:30pm".data ≠ none :=
  claim_C10_amended "9:00to11:30pm".data (by decide)
